import Mathlib

/-!
Verification of the ingestion + retrieval pipeline of the Quran-ILM repository.

The Python sources embedded here:
  * `src/rag_ingestion.py` — `SimpleTextSplitter.split_text`, `create_vector_index`,
    `get_embedding`, `process_and_insert_document`, `run_ingestion_pipeline`;
  * `src/views/chatbot.py` — `vector_search`.

Text is modelled as `List Char` (Python strings index by code point), machine
integers as `Nat` (all the quantities involved are non-negative Python ints,
which are unbounded), calls to external services (the Google embedding API,
MongoDB) as explicit function parameters, and Python exceptions as
`Option`/`Except` results.
-/

set_option autoImplicit false

namespace QuranILM

/-! ### Python primitives used by the splitter -/

/-- Python `text[a:b]` for `0 ≤ a ≤ b` (the only shape the splitter uses). -/
def pySlice (text : List Char) (a b : Nat) : List Char :=
  (text.drop a).take (b - a)

/-- Largest `i` with `a ≤ i < b` and `p i = true`; `none` when there is no such
`i`.  This is the search skeleton shared by Python's `str.rfind` calls. -/
def lastHit (a : Nat) (p : Nat → Bool) : Nat → Option Nat
  | 0 => none
  | b + 1 => if a ≤ b ∧ p b = true then some b else lastHit a p b

/-- Python `text.rfind(c, a, b)` for a one-character needle `c`
(`none` models the return value `-1`). -/
def rfindChar (text : List Char) (c : Char) (a b : Nat) : Option Nat :=
  lastHit a (fun i => text.get? i == some c) b

/-- Python `text.rfind('. ', a, b)`: the match at `i` must fit inside the
bounds, i.e. `a ≤ i` and `i + 2 ≤ b`. -/
def rfindDotSpace (text : List Char) (a b : Nat) : Option Nat :=
  lastHit a (fun i => text.get? i == some '.' && text.get? (i + 1) == some ' ') (b - 1)

/-! ### `SimpleTextSplitter` (src/rag_ingestion.py, lines 104-135) -/

/-- One loop iteration's `end` value: `end = min(start + chunk_size, text_len)`,
then adjusted backwards to a newline or a `'. '` break found in the last
`int(chunk_size * 0.1)` characters, but only when `end < text_len`.
`size / 10` models Python's `int(chunk_size * 0.1)`, with which it agrees for
every realistic size (the float product only drifts across an integer for
sizes beyond `2 ^ 50`). -/
def chunkEnd (text : List Char) (size start : Nat) : Nat :=
  if min (start + size) text.length < text.length then
    match rfindChar text '\n' (min (start + size) text.length - size / 10)
        (min (start + size) text.length) with
    | some i => i + 1
    | none =>
      match rfindDotSpace text (min (start + size) text.length - size / 10)
          (min (start + size) text.length) with
      | some i => i + 2
      | none => min (start + size) text.length
  else min (start + size) text.length

/-- The next window start: `start += chunk_size - chunk_overlap`, overridden by
`start = end` when `chunk_overlap >= chunk_size` (the infinite-loop guard). -/
def nextStart (size overlap start e : Nat) : Nat :=
  if size ≤ overlap then e else start + (size - overlap)

/-- The splitter loop, running at most `fuel` iterations.  `split_text_stable`
below shows `text.length` iterations always suffice when `chunk_size ≥ 1`. -/
def splitGo (text : List Char) (size overlap : Nat) : Nat → Nat → List (List Char)
  | 0, _ => []
  | fuel + 1, start =>
    if start < text.length then
      let e := chunkEnd text size start
      pySlice text start e :: splitGo text size overlap fuel (nextStart size overlap start e)
    else []

/-- `SimpleTextSplitter.split_text` (the `if not text: return []` guard is kept
even though the loop already returns `[]` on empty input). -/
def split_text (text : List Char) (size overlap : Nat) : List (List Char) :=
  if text = [] then [] else splitGo text size overlap text.length 0

/-! ### Search-primitive specifications -/

theorem lastHit_none_iff (a : Nat) (p : Nat → Bool) :
    ∀ b, lastHit a p b = none ↔ ∀ i, a ≤ i → i < b → ¬ p i = true := by
  intro b
  induction b with
  | zero => simp [lastHit]
  | succ b ih =>
    unfold lastHit
    by_cases h : a ≤ b ∧ p b = true
    · simp only [if_pos h]
      constructor
      · intro hc; exact absurd hc (by simp)
      · intro hall; exact absurd (hall b h.1 (Nat.lt_succ_self b)) (by simp [h.2])
    · simp only [if_neg h, ih]
      constructor
      · intro hall i hai hib
        rcases Nat.lt_succ_iff_lt_or_eq.mp hib with hlt | heq
        · exact hall i hai hlt
        · subst heq; intro hp; exact h ⟨hai, hp⟩
      · intro hall i hai hib
        exact hall i hai (Nat.lt_succ_of_lt hib)

theorem lastHit_some (a : Nat) (p : Nat → Bool) :
    ∀ b j, lastHit a p b = some j →
      a ≤ j ∧ j < b ∧ p j = true ∧ ∀ m, j < m → m < b → ¬ p m = true := by
  intro b
  induction b with
  | zero => intro j h; simp [lastHit] at h
  | succ b ih =>
    intro j h
    unfold lastHit at h
    by_cases hb : a ≤ b ∧ p b = true
    · simp only [if_pos hb, Option.some.injEq] at h
      subst h
      exact ⟨hb.1, Nat.lt_succ_self b, hb.2, fun m hm hmb => by omega⟩
    · simp only [if_neg hb] at h
      obtain ⟨h1, h2, h3, h4⟩ := ih j h
      refine ⟨h1, Nat.lt_succ_of_lt h2, h3, fun m hm hmb => ?_⟩
      rcases Nat.lt_succ_iff_lt_or_eq.mp hmb with hlt | heq
      · exact h4 m hm hlt
      · intro hp
        exact hb ⟨by omega, heq ▸ hp⟩

/-- Specification of a successful `rfind` for a one-character needle. -/
theorem rfindChar_some (text : List Char) (c : Char) (a b i : Nat)
    (h : rfindChar text c a b = some i) :
    a ≤ i ∧ i < b ∧ text.get? i = some c ∧
      ∀ m, i < m → m < b → ¬ text.get? m = some c := by
  unfold rfindChar at h
  obtain ⟨h1, h2, h3, h4⟩ := lastHit_some _ _ _ _ h
  refine ⟨h1, h2, by simpa using h3, fun m hm hmb hc => ?_⟩
  exact h4 m hm hmb (by simpa using hc)

/-- Specification of a failed `rfind` for a one-character needle. -/
theorem rfindChar_none (text : List Char) (c : Char) (a b : Nat)
    (h : rfindChar text c a b = none) :
    ∀ i, a ≤ i → i < b → ¬ text.get? i = some c := by
  unfold rfindChar at h
  intro i hia hib hc
  exact (lastHit_none_iff _ _ b).mp h i hia hib (by simpa using hc)

/-- Specification of a successful `rfind('. ', a, b)`. -/
theorem rfindDotSpace_some (text : List Char) (a b i : Nat)
    (h : rfindDotSpace text a b = some i) :
    a ≤ i ∧ i + 2 ≤ b ∧ text.get? i = some '.' ∧ text.get? (i + 1) = some ' ' ∧
      ∀ m, i < m → m + 2 ≤ b →
        ¬ (text.get? m = some '.' ∧ text.get? (m + 1) = some ' ') := by
  unfold rfindDotSpace at h
  obtain ⟨h1, h2, h3, h4⟩ := lastHit_some _ _ _ _ h
  rw [Bool.and_eq_true, beq_iff_eq, beq_iff_eq] at h3
  refine ⟨h1, by omega, h3.1, h3.2, fun m hm hmb hc => ?_⟩
  refine h4 m hm (by omega) ?_
  rw [Bool.and_eq_true, beq_iff_eq, beq_iff_eq]
  exact hc

/-- Specification of a failed `rfind('. ', a, b)`. -/
theorem rfindDotSpace_none (text : List Char) (a b : Nat)
    (h : rfindDotSpace text a b = none) :
    ∀ i, a ≤ i → i + 2 ≤ b →
      ¬ (text.get? i = some '.' ∧ text.get? (i + 1) = some ' ') := by
  unfold rfindDotSpace at h
  intro i hia hib hc
  refine (lastHit_none_iff _ _ _).mp h i hia (by omega) ?_
  rw [Bool.and_eq_true, beq_iff_eq, beq_iff_eq]
  exact hc

/-! ### Basic bounds on `chunkEnd` and `nextStart` -/

theorem chunkEnd_le (text : List Char) (size start : Nat) :
    chunkEnd text size start ≤ min (start + size) text.length := by
  unfold chunkEnd
  split
  · split
    · next i hi =>
      obtain ⟨_, hib, _, _⟩ := rfindChar_some _ _ _ _ _ hi
      omega
    · split
      · next i hi =>
        obtain ⟨_, hib, _, _, _⟩ := rfindDotSpace_some _ _ _ _ hi
        omega
      · omega
  · omega

theorem chunkEnd_le_length (text : List Char) (size start : Nat) :
    chunkEnd text size start ≤ text.length :=
  Nat.le_trans (chunkEnd_le text size start) (Nat.min_le_right _ _)

theorem chunkEnd_gt (text : List Char) (size start : Nat)
    (hsize : 1 ≤ size) (hstart : start < text.length) :
    start < chunkEnd text size start := by
  unfold chunkEnd
  have hdiv : size / 10 < size := Nat.div_lt_self (by omega) (by omega)
  split
  · next h =>
    split
    · next i hi =>
      obtain ⟨hia, _, _, _⟩ := rfindChar_some _ _ _ _ _ hi
      omega
    · split
      · next i hi =>
        obtain ⟨hia, _, _, _, _⟩ := rfindDotSpace_some _ _ _ _ hi
        omega
      · omega
  · next h =>
    omega

theorem nextStart_gt (text : List Char) (size overlap start : Nat)
    (hsize : 1 ≤ size) (hstart : start < text.length) :
    start < nextStart size overlap start (chunkEnd text size start) := by
  unfold nextStart
  by_cases h : size ≤ overlap
  · simpa [if_pos h] using chunkEnd_gt text size start hsize hstart
  · simp only [if_neg h]
    omega

/-! ### Termination of the splitter loop (claim C5) -/

theorem splitGo_of_le (text : List Char) (size overlap fuel start : Nat)
    (h : text.length ≤ start) : splitGo text size overlap fuel start = [] := by
  cases fuel with
  | zero => rfl
  | succ fuel => simp [splitGo, Nat.not_lt_of_le h]

theorem splitGo_fuel_stable (text : List Char) (size overlap : Nat) (hsize : 1 ≤ size) :
    ∀ fuel₁ fuel₂ start, text.length - start ≤ fuel₁ → text.length - start ≤ fuel₂ →
      splitGo text size overlap fuel₁ start = splitGo text size overlap fuel₂ start := by
  intro fuel₁
  induction fuel₁ with
  | zero =>
    intro fuel₂ start h₁ h₂
    rw [splitGo_of_le text size overlap 0 start (by omega),
        splitGo_of_le text size overlap fuel₂ start (by omega)]
  | succ fuel₁ ih =>
    intro fuel₂ start h₁ h₂
    by_cases hs : start < text.length
    · have hns := nextStart_gt text size overlap start hsize hs
      cases fuel₂ with
      | zero => omega
      | succ fuel₂ =>
        simp only [splitGo, if_pos hs]
        rw [ih fuel₂ (nextStart size overlap start (chunkEnd text size start))
          (by omega) (by omega)]
    · rw [splitGo_of_le text size overlap _ start (by omega),
          splitGo_of_le text size overlap _ start (by omega)]

/-- C5: `SimpleTextSplitter.split_text` terminates for every input and every
configuration with `chunk_size ≥ 1`, including `chunk_overlap ≥ chunk_size`:
every iteration strictly increases the window start, and the loop finishes in
at most `text.length` iterations (any fuel of at least `text.length` computes
the same chunk list). -/
theorem split_text_terminates (text : List Char) (size overlap : Nat) (hsize : 1 ≤ size) :
    (∀ start, start < text.length →
      start < nextStart size overlap start (chunkEnd text size start)) ∧
    ∀ fuel, text.length ≤ fuel →
      splitGo text size overlap fuel 0 = split_text text size overlap := by
  refine ⟨fun start hs => nextStart_gt text size overlap start hsize hs, fun fuel hf => ?_⟩
  unfold split_text
  by_cases h : text = []
  · subst h
    rw [if_pos rfl]
    exact splitGo_of_le [] size overlap fuel 0 (by simp)
  · rw [if_neg h]
    exact splitGo_fuel_stable text size overlap hsize fuel text.length 0 (by omega) (by omega)

theorem split_text_terminates_witness :
    ((0 : Nat) < nextStart 1 5 0 (chunkEnd ['a', 'b'] 1 0)) ∧
      splitGo ['a', 'b'] 1 5 7 0 = split_text ['a', 'b'] 1 5 :=
  ⟨(split_text_terminates ['a', 'b'] 1 5 (by decide)).1 0 (by decide),
   (split_text_terminates ['a', 'b'] 1 5 (by decide)).2 7 (by decide)⟩

/-! ### Chunk length bound (claim C6) -/

theorem pySlice_length_le (text : List Char) (a b : Nat) :
    (pySlice text a b).length ≤ b - a := by
  unfold pySlice
  simp

theorem splitGo_chunk_le (text : List Char) (size overlap : Nat) :
    ∀ fuel start c, c ∈ splitGo text size overlap fuel start → c.length ≤ size := by
  intro fuel
  induction fuel with
  | zero => intro start c hc; simp [splitGo] at hc
  | succ fuel ih =>
    intro start c hc
    by_cases hs : start < text.length
    · simp only [splitGo, if_pos hs, List.mem_cons] at hc
      rcases hc with hc | hc
      · subst hc
        have h1 := pySlice_length_le text start (chunkEnd text size start)
        have h2 := chunkEnd_le text size start
        omega
      · exact ih _ c hc
    · rw [splitGo_of_le text size overlap _ start (by omega)] at hc
      simp at hc

/-- C6: every chunk returned by `split_text` has length at most `chunk_size`
(the break-point adjustment only ever moves the chunk end backwards). -/
theorem split_text_chunk_le (text : List Char) (size overlap : Nat) (hsize : 1 ≤ size) :
    ∀ c ∈ split_text text size overlap, c.length ≤ size := by
  intro c hc
  unfold split_text at hc
  by_cases h : text = []
  · simp [h] at hc
  · rw [if_neg h] at hc
    exact splitGo_chunk_le text size overlap text.length 0 c hc

theorem split_text_chunk_le_witness :
    (['h', 'e', 'l', 'l'] : List Char).length ≤ 4 :=
  split_text_chunk_le ['h', 'e', 'l', 'l', 'o', ' ', 'w', 'o', 'r', 'l', 'd'] 4 1
    (by decide) ['h', 'e', 'l', 'l'] (by decide)

/-! ### Monotonicity of chunk ends

Consecutive windows have non-decreasing (adjusted) end positions: whatever
break point the next window's look-back search finds, the previous window's
search would have found it too (or found a later one).  This holds for every
configuration with `chunk_overlap < chunk_size`. -/

theorem chunkEnd_eq_of_lt (text : List Char) (size start : Nat)
    (h : start + size < text.length) :
    chunkEnd text size start =
      match rfindChar text '\n' (start + size - size / 10) (start + size) with
      | some i => i + 1
      | none =>
        match rfindDotSpace text (start + size - size / 10) (start + size) with
        | some i => i + 2
        | none => start + size := by
  unfold chunkEnd
  rw [Nat.min_eq_left (Nat.le_of_lt h), if_pos h]

theorem chunkEnd_eq_of_ge (text : List Char) (size start : Nat)
    (h : text.length ≤ start + size) :
    chunkEnd text size start = text.length := by
  unfold chunkEnd
  rw [Nat.min_eq_right h, if_neg (lt_irrefl text.length)]

theorem chunkEnd_mono (text : List Char) (size overlap start : Nat)
    (hov : overlap < size) (hs' : start + (size - overlap) < text.length) :
    chunkEnd text size start ≤ chunkEnd text size (start + (size - overlap)) := by
  have hlbs : size / 10 ≤ size := Nat.div_le_self size 10
  by_cases hclip : start + size < text.length
  · by_cases hclip' : start + (size - overlap) + size < text.length
    · rw [chunkEnd_eq_of_lt text size start hclip,
          chunkEnd_eq_of_lt text size (start + (size - overlap)) hclip']
      split
      · next j hr =>
        -- earlier window adjusts to a newline at j
        obtain ⟨hja, hj2, hjnl, _⟩ := rfindChar_some _ _ _ _ _ hr
        split
        · next i hr' =>
          -- later window also adjusts to a newline: maximality of its hit
          obtain ⟨hi1, hi2, hinl, hmax'⟩ := rfindChar_some _ _ _ _ _ hr'
          have hgoal : j + 1 ≤ i + 1 := by
            by_contra hcon
            exact hmax' j (by omega) (by omega) hjnl
          exact hgoal
        · next hr' =>
          -- later window finds no newline, yet j would lie in its look-back
          have hnonl := rfindChar_none _ _ _ _ hr'
          split
          · next i hd' =>
            obtain ⟨hi1, hi2, _, _, _⟩ := rfindDotSpace_some _ _ _ _ hd'
            have hgoal : j + 1 ≤ i + 2 := by
              by_contra hcon
              exact hnonl j (by omega) (by omega) hjnl
            exact hgoal
          · next hd' =>
            have hgoal : j + 1 ≤ start + (size - overlap) + size := by omega
            exact hgoal
      · next hr =>
        have hnl := rfindChar_none _ _ _ _ hr
        split
        · next j hd =>
          -- earlier window adjusts to a '. ' break at j
          obtain ⟨hja, hj2, hjdot, hjsp, _⟩ := rfindDotSpace_some _ _ _ _ hd
          split
          · next i hr' =>
            -- a newline at i inside the earlier window would contradict hr
            obtain ⟨hi1, hi2, hinl, _⟩ := rfindChar_some _ _ _ _ _ hr'
            have hgoal : j + 2 ≤ i + 1 := by
              by_contra hcon
              exact hnl i (by omega) (by omega) hinl
            exact hgoal
          · next hr' =>
            split
            · next i hd' =>
              -- both adjust by '. ': maximality of the later hit
              obtain ⟨hi1, hi2, hidot, hisp, hmax'⟩ := rfindDotSpace_some _ _ _ _ hd'
              have hgoal : j + 2 ≤ i + 2 := by
                by_contra hcon
                exact hmax' j (by omega) (by omega) ⟨hjdot, hjsp⟩
              exact hgoal
            · next hd' =>
              have hgoal : j + 2 ≤ start + (size - overlap) + size := by omega
              exact hgoal
        · next hd =>
          -- earlier window unadjusted (no newline, no '. ')
          have hnd := rfindDotSpace_none _ _ _ hd
          split
          · next i hr' =>
            obtain ⟨hi1, hi2, hinl, _⟩ := rfindChar_some _ _ _ _ _ hr'
            have hgoal : start + size ≤ i + 1 := by
              by_contra hcon
              exact hnl i (by omega) (by omega) hinl
            exact hgoal
          · next hr' =>
            split
            · next i hd' =>
              obtain ⟨hi1, hi2, hidot, hisp, _⟩ := rfindDotSpace_some _ _ _ _ hd'
              have hgoal : start + size ≤ i + 2 := by
                by_contra hcon
                exact hnd i (by omega) (by omega) ⟨hidot, hisp⟩
              exact hgoal
            · next hd' =>
              have hgoal : start + size ≤ start + (size - overlap) + size := by omega
              exact hgoal
    · -- the later window reaches the end of the text
      have h1 := chunkEnd_le_length text size start
      rw [chunkEnd_eq_of_ge text size (start + (size - overlap)) (by omega)]
      omega
  · -- the earlier window already reaches the end of the text; so does the later
    rw [chunkEnd_eq_of_ge text size start (by omega),
        chunkEnd_eq_of_ge text size (start + (size - overlap)) (by omega)]

/-! ### Slice lemmas -/

theorem pySlice_get (text : List Char) (a b i : Nat) (hai : a ≤ i) (hib : i < b) :
    (pySlice text a b).get? (i - a) = text.get? i := by
  unfold pySlice
  rw [List.get?_take (by omega : i - a < b - a), List.get?_drop]
  congr 1
  omega

theorem pySlice_mem (text : List Char) (a b i : Nat) (hai : a ≤ i) (hib : i < b)
    (ch : Char) (h : text.get? i = some ch) : ch ∈ pySlice text a b :=
  List.get?_mem (by rw [pySlice_get text a b i hai hib]; exact h)

theorem pySlice_ne_nil (text : List Char) (a b : Nat)
    (hab : a < b) (hal : a < text.length) : pySlice text a b ≠ [] := by
  unfold pySlice
  intro h
  have hlen := congrArg List.length h
  simp only [List.length_take, List.length_drop, List.length_nil] at hlen
  omega

theorem pySlice_drop (text : List Char) (a a' b : Nat) (h : a ≤ a') :
    pySlice text a' b = (pySlice text a b).drop (a' - a) := by
  have e1 : a + (a' - a) = a' := by omega
  have e2 : b - a - (a' - a) = b - a' := by omega
  unfold pySlice
  rw [List.drop_take, List.drop_drop, e1, e2]

theorem pySlice_take (text : List Char) (a b b' : Nat) (h : b ≤ b') :
    pySlice text a b = (pySlice text a b').take (b - a) := by
  unfold pySlice
  rw [List.take_take]
  congr 1
  omega

/-! ### Losslessness of the splitter under enough overlap (claim C3, amended) -/

theorem nextStart_le_chunkEnd (text : List Char) (size overlap start : Nat)
    (hov : overlap < size) (hlb : size / 10 ≤ overlap + 1)
    (hclip : start + size < text.length) :
    nextStart size overlap start (chunkEnd text size start) ≤ chunkEnd text size start := by
  have hne : nextStart size overlap start (chunkEnd text size start) =
      start + (size - overlap) := by
    unfold nextStart
    rw [if_neg (by omega)]
  rw [hne, chunkEnd_eq_of_lt text size start hclip]
  split
  · next j hr =>
    obtain ⟨hja, hj2, _, _⟩ := rfindChar_some _ _ _ _ _ hr
    have hgoal : start + (size - overlap) ≤ j + 1 := by omega
    exact hgoal
  · next hr =>
    split
    · next j hd =>
      obtain ⟨hja, hj2, _, _, _⟩ := rfindDotSpace_some _ _ _ _ hd
      have hgoal : start + (size - overlap) ≤ j + 2 := by omega
      exact hgoal
    · next hd =>
      have hgoal : start + (size - overlap) ≤ start + size := by omega
      exact hgoal

theorem splitGo_covers (text : List Char) (size overlap : Nat)
    (hov : overlap < size) (hlb : size / 10 ≤ overlap + 1) :
    ∀ fuel start i ch, text.length - start ≤ fuel → start ≤ i → i < text.length →
      text.get? i = some ch →
      ∃ c ∈ splitGo text size overlap fuel start, ch ∈ c := by
  intro fuel
  induction fuel with
  | zero =>
    intro start i ch h1 h2 h3 _
    omega
  | succ fuel ih =>
    intro start i ch h1 h2 h3 hch
    have hs : start < text.length := by omega
    have hsize : 1 ≤ size := by omega
    simp only [splitGo, if_pos hs]
    by_cases hie : i < chunkEnd text size start
    · exact ⟨pySlice text start (chunkEnd text size start), List.mem_cons_self _ _,
        pySlice_mem text start _ i h2 hie ch hch⟩
    · have hclip : start + size < text.length := by
        by_contra hcl
        rw [chunkEnd_eq_of_ge text size start (by omega)] at hie
        omega
      have hns_le := nextStart_le_chunkEnd text size overlap start hov hlb hclip
      have hns_gt := nextStart_gt text size overlap start hsize hs
      obtain ⟨c, hc, hchc⟩ :=
        ih (nextStart size overlap start (chunkEnd text size start)) i ch
          (by omega) (by omega) h3 hch
      exact ⟨c, List.mem_cons_of_mem _ hc, hchc⟩

/-- C3 (amended): chunking loses no text provided the look-back window
`int(chunk_size * 0.1)` is at most `chunk_overlap + 1` (this holds in
particular for the shipped defaults 500/50).  Every character of the input
appears in at least one returned chunk. -/
theorem split_text_lossless (text : List Char) (size overlap : Nat)
    (h0 : 0 < overlap) (hov : overlap < size) (hlb : size / 10 ≤ overlap + 1) :
    ∀ i ch, text.get? i = some ch → ∃ c ∈ split_text text size overlap, ch ∈ c := by
  intro i ch hch
  have hi : i < text.length := by
    rcases List.get?_eq_some.mp hch with ⟨h, _⟩
    exact h
  unfold split_text
  rw [if_neg (by intro h; rw [h] at hi; simp at hi)]
  exact splitGo_covers text size overlap hov hlb text.length 0 i ch
    (by omega) (by omega) hi hch

theorem split_text_lossless_witness :
    ∃ c ∈ split_text ['a', 'b', 'c', 'd', 'e', 'f', 'g', 'h', 'i', 'j', 'k', 'l'] 10 1,
      'l' ∈ c :=
  split_text_lossless _ 10 1 (by decide) (by decide) (by decide) 11 'l' (by decide)

/-- A 101-character text whose first window is adjusted back to the newline at
index 90 while the next window starts at index 95: the characters at indices
91-94 (`'b'`, `'c'`, `'d'`, `'e'`) fall in the gap. -/
def exText : List Char :=
  List.replicate 90 'a' ++ '\n' :: ['b', 'c', 'd', 'e', 'f', 'g', 'h', 'i', 'j', 'k']

/-- C3 counterexample: with `chunk_size = 100` and `chunk_overlap = 5`
(a configuration with `0 < chunk_overlap < chunk_size`), the character `'b'`
at index 91 of `exText` appears in no chunk of `split_text`. -/
theorem split_text_drops_chars :
    0 < 5 ∧ 5 < 100 ∧ exText.get? 91 = some 'b' ∧
      ∀ c ∈ split_text exText 100 5, 'b' ∉ c := by decide

/-! ### Overlap of consecutive chunks (claim C4, amended) -/

theorem nextStart_lt_chunkEnd (text : List Char) (size overlap start : Nat)
    (h0 : 0 < overlap) (hov : overlap < size) (hlb : size / 10 ≤ overlap)
    (hs' : start + (size - overlap) < text.length) :
    start + (size - overlap) < chunkEnd text size start := by
  by_cases hclip : start + size < text.length
  · rw [chunkEnd_eq_of_lt text size start hclip]
    split
    · next j hr =>
      obtain ⟨hja, hj2, _, _⟩ := rfindChar_some _ _ _ _ _ hr
      have hgoal : start + (size - overlap) < j + 1 := by omega
      exact hgoal
    · next hr =>
      split
      · next j hd =>
        obtain ⟨hja, hj2, _, _, _⟩ := rfindDotSpace_some _ _ _ _ hd
        have hgoal : start + (size - overlap) < j + 2 := by omega
        exact hgoal
      · next hd =>
        have hgoal : start + (size - overlap) < start + size := by omega
        exact hgoal
  · rw [chunkEnd_eq_of_ge text size start (by omega)]
    omega

theorem splitGo_head_mem (text : List Char) (size overlap fuel s : Nat) (b : List Char)
    (h : b ∈ (splitGo text size overlap fuel s).head?) :
    s < text.length ∧ b = pySlice text s (chunkEnd text size s) := by
  cases fuel with
  | zero => simp [splitGo] at h
  | succ fuel =>
    by_cases hs : s < text.length
    · simp only [splitGo, if_pos hs, List.head?_cons, Option.mem_def,
        Option.some.injEq] at h
      exact ⟨hs, h.symm⟩
    · simp [splitGo, if_neg hs] at h

theorem splitGo_chain (text : List Char) (size overlap : Nat)
    (h0 : 0 < overlap) (hov : overlap < size) (hlb : size / 10 ≤ overlap) :
    ∀ fuel s, List.Chain' (fun c₁ c₂ => ∃ w, w ≠ [] ∧ w <:+ c₁ ∧ w <+: c₂)
      (splitGo text size overlap fuel s) := by
  intro fuel
  induction fuel with
  | zero => intro s; simp [splitGo]
  | succ fuel ih =>
    intro s
    by_cases hs : s < text.length
    · simp only [splitGo, if_pos hs]
      rw [List.chain'_cons']
      refine ⟨?_, ih _⟩
      intro y hy
      obtain ⟨hns_lt, hy_eq⟩ := splitGo_head_mem text size overlap fuel _ y hy
      have hns_eq : nextStart size overlap s (chunkEnd text size s) =
          s + (size - overlap) := by
        unfold nextStart
        rw [if_neg (by omega)]
      rw [hns_eq] at hns_lt hy_eq
      subst hy_eq
      have hlt := nextStart_lt_chunkEnd text size overlap s h0 hov hlb hns_lt
      have hmono := chunkEnd_mono text size overlap s hov hns_lt
      refine ⟨pySlice text (s + (size - overlap)) (chunkEnd text size s), ?_, ?_, ?_⟩
      · exact pySlice_ne_nil text _ _ hlt hns_lt
      · rw [pySlice_drop text s (s + (size - overlap)) (chunkEnd text size s) (by omega)]
        exact List.drop_suffix _ _
      · rw [pySlice_take text (s + (size - overlap)) (chunkEnd text size s)
          (chunkEnd text size (s + (size - overlap))) hmono]
        exact List.take_prefix _ _
    · rw [splitGo_of_le text size overlap _ s (by omega)]
      exact List.chain'_nil

/-- C4 (amended): for input longer than `chunk_size` and a configuration with
`0 < chunk_overlap < chunk_size`, `split_text` returns at least two chunks;
and provided additionally that the look-back window `int(chunk_size * 0.1)` is
at most `chunk_overlap` (true for the shipped defaults 500/50), every chunk
after the first begins with a non-empty suffix of the chunk before it. -/
theorem split_text_overlapping (text : List Char) (size overlap : Nat)
    (h0 : 0 < overlap) (hov : overlap < size) (hlen : size < text.length) :
    2 ≤ (split_text text size overlap).length ∧
      (size / 10 ≤ overlap →
        List.Chain' (fun c₁ c₂ => ∃ w, w ≠ [] ∧ w <:+ c₁ ∧ w <+: c₂)
          (split_text text size overlap)) := by
  constructor
  · unfold split_text
    rw [if_neg (by intro h; rw [h] at hlen; simp at hlen)]
    obtain ⟨m, hm⟩ : ∃ m, text.length = m + 1 := ⟨text.length - 1, by omega⟩
    rw [hm]
    simp only [splitGo, if_pos (show (0 : Nat) < text.length by omega), List.length_cons]
    have hns_eq : nextStart size overlap 0 (chunkEnd text size 0) = size - overlap := by
      unfold nextStart
      rw [if_neg (by omega)]
      omega
    rw [hns_eq]
    cases m with
    | zero => omega
    | succ m' =>
      simp only [splitGo, if_pos (show size - overlap < text.length by omega),
        List.length_cons]
      omega
  · intro hlb
    unfold split_text
    split
    · exact List.chain'_nil
    · exact splitGo_chain text size overlap h0 hov hlb text.length 0

theorem split_text_overlapping_witness :
    2 ≤ (split_text ('x' :: List.replicate 24 'y') 10 5).length ∧
      List.Chain' (fun c₁ c₂ => ∃ w, w ≠ [] ∧ w <:+ c₁ ∧ w <+: c₂)
        (split_text ('x' :: List.replicate 24 'y') 10 5) :=
  ⟨(split_text_overlapping ('x' :: List.replicate 24 'y') 10 5
      (by decide) (by decide) (by decide)).1,
   (split_text_overlapping ('x' :: List.replicate 24 'y') 10 5
      (by decide) (by decide) (by decide)).2 (by decide)⟩

/-- C4 counterexample: with `chunk_size = 100`, `chunk_overlap = 5` and the
101-character input `exText` (longer than `chunk_size`), the second chunk does
not begin with a non-empty suffix of the first: the first chunk ends with a
newline that occurs nowhere in the second chunk. -/
theorem split_text_overlap_fails :
    0 < 5 ∧ 5 < 100 ∧ 100 < exText.length ∧
      ¬ List.Chain' (fun c₁ c₂ => ∃ w, w ≠ [] ∧ w <:+ c₁ ∧ w <+: c₂)
        (split_text exText 100 5) := by
  refine ⟨by decide, by decide, by decide, ?_⟩
  intro hchain
  have hsplit : split_text exText 100 5 =
      [List.replicate 90 'a' ++ ['\n'], ['f', 'g', 'h', 'i', 'j', 'k']] := by decide
  rw [hsplit, List.chain'_cons] at hchain
  obtain ⟨⟨w, hw0, hwsuf, hwpre⟩, -⟩ := hchain
  have hlast : w.getLast? = some '\n' := by
    obtain ⟨t, hts⟩ := hwsuf
    have h1 : (t ++ w).getLast? = w.getLast? := List.getLast?_append_of_ne_nil t hw0
    rw [hts] at h1
    rw [← h1]
    decide
  have hmem : '\n' ∈ w := by
    obtain ⟨h, heq⟩ := List.mem_getLast?_eq_getLast (l := w) (x := '\n')
      (by rw [Option.mem_def]; exact hlast)
    rw [heq]
    exact List.getLast_mem h
  have hmem2 : '\n' ∈ ['f', 'g', 'h', 'i', 'j', 'k'] := hwpre.subset hmem
  revert hmem2
  decide

/-! ### Embedding requests and the vector search index (claims C1, C2)

The embedding API and the index-management API are external services; what the
repository controls is the request payloads it sends, which are embedded here
verbatim. -/

structure EmbedRequest where
  content : String
  task_type : String
  output_dimensionality : Nat
  deriving DecidableEq

/-- The `genai.embed_content` request issued by `get_embedding` in
`src/rag_ingestion.py` (lines 200-214): task type `retrieval_document` and
`output_dimensionality=768` (comment: "Force 768 dimensions"). -/
def get_embedding_request (text : String) : EmbedRequest :=
  { content := text, task_type := "retrieval_document", output_dimensionality := 768 }

/-- The `genai.embed_content` request issued by `vector_search` in
`src/views/chatbot.py` (lines 140-146): task type `retrieval_query` and
`output_dimensionality=3072` (comment: "Force 3072 dimensions to match data"). -/
def vector_search_embed_request (query : String) : EmbedRequest :=
  { content := query, task_type := "retrieval_query", output_dimensionality := 3072 }

inductive IndexField where
  | vector (numDimensions : Nat) (path : String) (similarity : String)
  | filterField (path : String)
  deriving DecidableEq

/-- The Atlas Vector Search index definition created by `create_vector_index`
(`src/rag_ingestion.py`, lines 142-179): index name `default`, a 768-dimension
cosine vector field on path `embedding`, and a filter-type field on
`metadata.sourceFile`. -/
def vector_index_fields : List IndexField :=
  [.vector 768 "embedding" "cosine", .filterField "metadata.sourceFile"]

def vector_index_name : String := "default"

/-- The `numDimensions` declared for a given path in an index definition. -/
def vectorFieldDims (fields : List IndexField) (path : String) : Option Nat :=
  fields.findSome? fun f =>
    match f with
    | .vector n p _ => if p = path then some n else none
    | .filterField _ => none

/-- C1: the requested output dimensionality is NOT the same throughout the
pipeline.  Ingestion requests 768-dimensional chunk embeddings, matching the
`numDimensions` of the `embedding` path in the index, but `vector_search`
requests 3072-dimensional query embeddings, so a stored chunk vector and a
query vector do not have equal length. -/
theorem embedding_dimension_mismatch :
    (get_embedding_request "chunk text").output_dimensionality = 768 ∧
    vectorFieldDims vector_index_fields "embedding" = some 768 ∧
    (vector_search_embed_request "What does Surah Al-Fatiha teach?").output_dimensionality = 3072 ∧
    (vector_search_embed_request "What does Surah Al-Fatiha teach?").output_dimensionality ≠
      (get_embedding_request "chunk text").output_dimensionality := by
  decide

/-! ### The aggregation pipeline of `vector_search` (claims C2, C8) -/

/-- A fragment of BSON sufficient for the pipeline `vector_search` builds;
`V` is the (opaque) type of embedding-vector entries. -/
inductive Bson (V : Type) where
  | str (s : String)
  | int (n : Nat)
  | vec (v : List V)
  | doc (fields : List (String × Bson V))

/-- The body of the `$vectorSearch` stage built by `vector_search`
(`src/views/chatbot.py`, lines 152-161). -/
def vectorSearchStageFields {V : Type} (queryVector : List V) (k : Nat) :
    List (String × Bson V) :=
  [("index", .str "default"), ("path", .str "embedding"),
   ("queryVector", .vec queryVector), ("numCandidates", .int 100),
   ("limit", .int k)]

/-- The body of the `$project` stage (`src/views/chatbot.py`, lines 162-169). -/
def projectStageFields {V : Type} : List (String × Bson V) :=
  [("_id", .int 0), ("text", .int 1), ("metadata", .int 1),
   ("score", .doc [("$meta", .str "vectorSearchScore")])]

/-- The full two-stage aggregation pipeline submitted by `vector_search`. -/
def vector_search_pipeline {V : Type} (queryVector : List V) (k : Nat) : List (Bson V) :=
  [.doc [("$vectorSearch", .doc (vectorSearchStageFields queryVector k))],
   .doc [("$project", .doc projectStageFields)]]

/-- C2 counterexample: for a concrete query vector and `k = 5`, the
`$vectorSearch` stage submitted by `vector_search` contains no `filter` key,
although the index declares `metadata.sourceFile` as a filter-type field. -/
theorem vector_search_no_filter :
    IndexField.filterField "metadata.sourceFile" ∈ vector_index_fields ∧
    ¬ "filter" ∈ (vectorSearchStageFields ([] : List Unit) 5).map Prod.fst := by
  decide

/-- C2 (amended): retrieval applies no metadata filtering.  For every query
vector and every `k`, the `$vectorSearch` stage has exactly the keys `index`,
`path`, `queryVector`, `numCandidates` and `limit` — no `filter` — even though
the index does declare `metadata.sourceFile` as a filter-type field. -/
theorem vector_search_stage_unfiltered {V : Type} (queryVector : List V) (k : Nat) :
    (vectorSearchStageFields queryVector k).map Prod.fst =
      ["index", "path", "queryVector", "numCandidates", "limit"] ∧
    ¬ "filter" ∈ (vectorSearchStageFields queryVector k).map Prod.fst ∧
    IndexField.filterField "metadata.sourceFile" ∈ vector_index_fields := by
  refine ⟨rfl, ?_, by decide⟩
  show ¬ "filter" ∈ ["index", "path", "queryVector", "numCandidates", "limit"]
  decide

/-! ### `vector_search` control flow (claim C8) -/

/-- The two classes of exception the aggregation call distinguishes
(`pymongo.errors.OperationFailure` and everything else). -/
inductive AggError where
  | operationFailure (details : String)
  | otherFailure (msg : String)

/-- The `limit` field inside the `$vectorSearch` stage of a pipeline. -/
def pipelineLimit {V : Type} : List (Bson V) → Option Nat
  | .doc [("$vectorSearch", .doc fields)] :: _ =>
    match fields.find? (fun kv => kv.1 == "limit") with
    | some (_, .int n) => some n
    | _ => none
  | _ => none

/-- `vector_search` (`src/views/chatbot.py`, lines 135-184).  The embedding
call and the aggregation call are external effects, passed in as functions
that either return a value or raise (model of the two `try`/`except` blocks);
`k` defaults to 5 at the call site. -/
def vector_search {V D : Type} (embed : String → Except String (List V))
    (agg : List (Bson V) → Except AggError (List D)) (query : String) (k : Nat) :
    List D :=
  match embed query with
  | .error _ => []
  | .ok queryVector =>
    match agg (vector_search_pipeline queryVector k) with
    | .ok results => results
    | .error _ => []

/-- C8: `vector_search` always returns a list.  If embedding the query raises
it returns `[]`; if the aggregation raises (`OperationFailure` or otherwise)
it returns `[]`; otherwise it returns exactly the documents produced by the
pipeline — and, whenever the database honours the `limit` field of the
`$vectorSearch` stage, at most `k` of them. -/
theorem vector_search_total {V D : Type} (embed : String → Except String (List V))
    (agg : List (Bson V) → Except AggError (List D)) (query : String) (k : Nat) :
    (∀ e, embed query = .error e → vector_search embed agg query k = []) ∧
    (∀ qv e, embed query = .ok qv → agg (vector_search_pipeline qv k) = .error e →
      vector_search embed agg query k = []) ∧
    (∀ qv r, embed query = .ok qv → agg (vector_search_pipeline qv k) = .ok r →
      vector_search embed agg query k = r) ∧
    ((∀ p r, agg p = .ok r → ∀ n, pipelineLimit p = some n → r.length ≤ n) →
      (vector_search embed agg query k).length ≤ k) := by
  refine ⟨?_, ?_, ?_, ?_⟩
  · intro e he
    unfold vector_search
    rw [he]
  · intro qv e he hagg
    unfold vector_search
    simp only [he, hagg]
  · intro qv r he hagg
    unfold vector_search
    simp only [he, hagg]
  · intro hdb
    unfold vector_search
    rcases hq : embed query with e | qv
    · simp only [hq]
      simp
    · simp only [hq]
      rcases hagg : agg (vector_search_pipeline qv k) with e | r
      · simp only [hagg]
        simp
      · simp only [hagg]
        exact hdb _ r hagg k rfl

theorem vector_search_total_witness :
    (vector_search (V := Unit) (D := Unit) (fun _ => .ok []) (fun _ => .ok [])
      "What is Tafsir?" 5).length ≤ 5 :=
  (vector_search_total (fun _ => .ok []) (fun _ => .ok []) "What is Tafsir?" 5).2.2.2
    (fun p r h n _ => by cases h; simp)

/-! ### The ingestion walk (claim C7)

`run_ingestion_pipeline` (src/rag_ingestion.py, lines 344-401).  The file-system
walk, the GridFS sync and the chunk insertion are external effects: `walked` is
the list of files the walk yields (with the dataType derived from the path),
`insertedOk f` says whether `process_and_insert_document` reached its final
status update for `f`, and `now` stands for `get_utc_now()`. -/

structure WalkedFile where
  relPath : String
  dataType : String
  deriving DecidableEq

/-- The fields of a `datasets` record that the pipeline reads or writes. -/
structure DatasetRec where
  status : Option String
  dataType : Option String
  fileName : Option String
  indexingDate : Option String
  deriving DecidableEq

def MetaDB : Type := String → Option DatasetRec

/-- The selective-indexing guard
`if target_files_set and relative_file_path not in target_files_set: continue`;
the empty list stands for the unset `None` (when the set is built from the
non-empty `TARGET_FILES_LIST` it is non-empty, matching Python truthiness). -/
def targetAllows (targetList : List String) (p : String) : Bool :=
  !(!targetList.isEmpty && !targetList.contains p)

/-- The status guard
`if status_doc and status_doc.get("status") == "INDEXED": continue`. -/
def statusAllows (db : MetaDB) (p : String) : Bool :=
  match db p with
  | some r => !(r.status == some "INDEXED")
  | none => true

/-- The `files_to_process` list assembled by the walk. -/
def selectFiles (targetList : List String) (db : MetaDB) (walked : List WalkedFile) :
    List WalkedFile :=
  walked.filter fun f => targetAllows targetList f.relPath && statusAllows db f.relPath

/-- `Path(rel_path).name`. -/
def fileNameOf (p : String) : String :=
  (p.splitOn "/").getLastD p

/-- The `update_one(..., upsert=True)` setting the record to `PENDING`
before processing. -/
def upsertPending (f : WalkedFile) (db : MetaDB) : MetaDB := fun q =>
  if q = f.relPath then
    match db q with
    | some r =>
      some { r with
             status := some "PENDING"
             dataType := some f.dataType
             fileName := some (fileNameOf f.relPath) }
    | none =>
      some { status := some "PENDING"
             dataType := some f.dataType
             fileName := some (fileNameOf f.relPath)
             indexingDate := none }
  else db q

/-- The `update_one` inside `process_and_insert_document` that sets
`status = "INDEXED"` after a successful insert (no upsert). -/
def markIndexed (now : String) (p : String) (db : MetaDB) : MetaDB := fun q =>
  if q = p then
    match db q with
    | some r =>
      some { r with
             status := some "INDEXED"
             indexingDate := some now }
    | none => db q
  else db q

/-- Processing one selected file: upsert `PENDING`, then mark `INDEXED` when
the chunk insertion succeeded. -/
def processFile (insertedOk : WalkedFile → Bool) (now : String) (db : MetaDB)
    (f : WalkedFile) : MetaDB :=
  if insertedOk f then markIndexed now f.relPath (upsertPending f db)
  else upsertPending f db

/-- The effect of `run_ingestion_pipeline` on the `datasets` records. -/
def run_ingestion_pipeline (targetList : List String) (db : MetaDB)
    (walked : List WalkedFile) (insertedOk : WalkedFile → Bool) (now : String) : MetaDB :=
  (selectFiles targetList db walked).foldl (processFile insertedOk now) db

theorem processFile_untouched (insertedOk : WalkedFile → Bool) (now : String)
    (db : MetaDB) (f : WalkedFile) (q : String) (h : q ≠ f.relPath) :
    processFile insertedOk now db f q = db q := by
  unfold processFile markIndexed upsertPending
  by_cases hio : insertedOk f <;> simp [hio, h]

theorem foldl_processFile_untouched (insertedOk : WalkedFile → Bool) (now : String)
    (p : String) :
    ∀ (l : List WalkedFile) (db : MetaDB), (∀ f ∈ l, f.relPath ≠ p) →
      (l.foldl (processFile insertedOk now) db) p = db p := by
  intro l
  induction l with
  | nil => intro db _; rfl
  | cons f l ih =>
    intro db h
    simp only [List.foldl_cons]
    rw [ih _ fun g hg => h g (List.mem_cons_of_mem f hg)]
    exact processFile_untouched insertedOk now db f p
      fun he => h f (List.mem_cons_self f l) he.symm

/-- C7: the walk processes only un-indexed files.  A file enters
`files_to_process` exactly when it passes the target-list guard and its
`datasets` record is absent or has a status other than `INDEXED`; and a file
whose record has status `INDEXED` is skipped and its record is left untouched
by the whole pipeline run. -/
theorem run_ingestion_skips_indexed (targetList : List String) (db : MetaDB)
    (walked : List WalkedFile) (insertedOk : WalkedFile → Bool) (now : String) :
    (∀ f, f ∈ selectFiles targetList db walked ↔
      f ∈ walked ∧ targetAllows targetList f.relPath = true ∧
        statusAllows db f.relPath = true) ∧
    ∀ p r, db p = some r → r.status = some "INDEXED" →
      (∀ f ∈ selectFiles targetList db walked, f.relPath ≠ p) ∧
      run_ingestion_pipeline targetList db walked insertedOk now p = db p := by
  have hmem : ∀ f, f ∈ selectFiles targetList db walked ↔
      f ∈ walked ∧ targetAllows targetList f.relPath = true ∧
        statusAllows db f.relPath = true := by
    intro f
    unfold selectFiles
    rw [List.mem_filter, Bool.and_eq_true]
  refine ⟨hmem, ?_⟩
  intro p r hdb hst
  have hne : ∀ f ∈ selectFiles targetList db walked, f.relPath ≠ p := by
    intro f hf heq
    have hsa := ((hmem f).mp hf).2.2
    rw [heq] at hsa
    simp [statusAllows, hdb, hst] at hsa
  exact ⟨hne, foldl_processFile_untouched insertedOk now p _ db hne⟩

/-- A metadata database with one record, already `INDEXED`. -/
def dbEx : MetaDB := fun p =>
  if p = "Quran/quran.txt" then
    some { status := some "INDEXED"
           dataType := some "Quran"
           fileName := some "quran.txt"
           indexingDate := some "2024-01-01" }
  else none

theorem run_ingestion_skips_indexed_witness :
    run_ingestion_pipeline [] dbEx
      [⟨"Quran/quran.txt", "Quran"⟩, ⟨"Tafsirs/IbnKathir/Vol1.pdf", "Tafsir"⟩]
      (fun _ => true) "2025-01-01" "Quran/quran.txt" = dbEx "Quran/quran.txt" :=
  ((run_ingestion_skips_indexed [] dbEx
      [⟨"Quran/quran.txt", "Quran"⟩, ⟨"Tafsirs/IbnKathir/Vol1.pdf", "Tafsir"⟩]
      (fun _ => true) "2025-01-01").2 "Quran/quran.txt"
    { status := some "INDEXED"
      dataType := some "Quran"
      fileName := some "quran.txt"
      indexingDate := some "2024-01-01" }
    (by decide) (by decide)).2

/-! ### Chunk documents built by `process_and_insert_document` (claims C9, C10) -/

/-- Python whitespace stripped by `str.strip()` (the repository's text files
are processed as ASCII/UTF-8; the code points stripped beyond these do not
affect the length bound). -/
def isPySpace (c : Char) : Bool :=
  c == ' ' || c == '\t' || c == '\n' || c == '\r' || c == '\x0b' || c == '\x0c'

/-- Python `s.strip()`. -/
def pyStrip (s : List Char) : List Char :=
  ((s.dropWhile isPySpace).reverse.dropWhile isPySpace).reverse

/-- The decimal representation of a chunk index, as `f"{i}"` renders it. -/
def natDigits (n : Nat) : List Char :=
  if _h : n < 10 then [Nat.digitChar n]
  else natDigits (n / 10) ++ [Nat.digitChar (n % 10)]
termination_by n
decreasing_by
  exact Nat.div_lt_self (by omega) (by omega)

/-- `f"{relative_file_path}_{i}".replace('.', '_').replace(' ', '_')`
(src/rag_ingestion.py, line 271). -/
def safe_id (relPath : List Char) (i : Nat) : List Char :=
  ((relPath ++ '_' :: natDigits i).map fun c => if c == '.' then '_' else c).map
    fun c => if c == ' ' then '_' else c

/-- One document of `vectors_to_insert` (src/rag_ingestion.py, lines 273-284);
`V` is the opaque type of embedding vectors. -/
structure ChunkDoc (V : Type) where
  idStr : List Char
  text : List Char
  embedding : V
  source : List Char
  chunkIndex : Nat

/-- `get_embedding` followed by the one retry after a sleep. -/
def embedWithRetry {V : Type} (e1 e2 : List Char → Option V) (t : List Char) :
    Option V :=
  match e1 t with
  | some v => some v
  | none => e2 t

/-- The body of the chunk loop: skip chunks whose stripped text is shorter
than 50 characters before any embedding call; skip chunks whose embedding
fails twice; otherwise append the chunk document.  The second component
collects the texts for which the embedding API was invoked at all. -/
def processStep {V : Type} (e1 e2 : List Char → Option V) (relPath : List Char)
    (acc : List (ChunkDoc V) × List (List Char)) (ic : Nat × List Char) :
    List (ChunkDoc V) × List (List Char) :=
  if (pyStrip ic.2).length < 50 then acc
  else
    match embedWithRetry e1 e2 ic.2 with
    | some v =>
      (acc.1 ++ [{ idStr := safe_id relPath ic.1
                   text := ic.2
                   embedding := v
                   source := relPath
                   chunkIndex := ic.1 }], acc.2 ++ [ic.2])
    | none => (acc.1, acc.2 ++ [ic.2])

/-- The chunk loop of `process_and_insert_document`
(src/rag_ingestion.py, lines 238-296): the `vectors_to_insert` list and the
list of texts sent to the embedding API. -/
def process_chunks {V : Type} (e1 e2 : List Char → Option V) (relPath : List Char)
    (chunks : List (List Char)) : List (ChunkDoc V) × List (List Char) :=
  chunks.enum.foldl (processStep e1 e2 relPath) ([], [])

theorem processStep_inv {V : Type} (e1 e2 : List Char → Option V)
    (relPath : List Char) :
    ∀ (l : List (Nat × List Char)) (acc : List (ChunkDoc V) × List (List Char)),
      (∀ d ∈ acc.1, 50 ≤ (pyStrip d.text).length) →
      (∀ t ∈ acc.2, 50 ≤ (pyStrip t).length) →
      (∀ d ∈ (l.foldl (processStep e1 e2 relPath) acc).1, 50 ≤ (pyStrip d.text).length) ∧
      (∀ t ∈ (l.foldl (processStep e1 e2 relPath) acc).2, 50 ≤ (pyStrip t).length) := by
  intro l
  induction l with
  | nil => intro acc h1 h2; exact ⟨h1, h2⟩
  | cons ic l ih =>
    intro acc h1 h2
    simp only [List.foldl_cons]
    apply ih
    · intro d hd
      unfold processStep at hd
      split at hd
      · exact h1 d hd
      · split at hd
        · next v _ =>
          rw [List.mem_append] at hd
          rcases hd with hd | hd
          · exact h1 d hd
          · rw [List.mem_singleton] at hd
            subst hd
            simp only []
            omega
        · exact h1 d hd
    · intro t ht
      unfold processStep at ht
      split at ht
      · exact h2 t ht
      · next hlong =>
        split at ht
        all_goals
          rw [List.mem_append] at ht
          rcases ht with ht | ht
          · exact h2 t ht
          · rw [List.mem_singleton] at ht
            subst ht
            omega

/-- C9: minimum-content invariant.  Every chunk document that
`process_and_insert_document` builds for insertion has a text whose
whitespace-stripped length is at least 50, and only such texts are ever sent
to the embedding API: a shorter chunk is silently skipped, neither embedded
nor stored. -/
theorem process_chunks_min_content {V : Type} (e1 e2 : List Char → Option V)
    (relPath : List Char) (chunks : List (List Char)) :
    (∀ d ∈ (process_chunks e1 e2 relPath chunks).1, 50 ≤ (pyStrip d.text).length) ∧
    ∀ t ∈ (process_chunks e1 e2 relPath chunks).2, 50 ≤ (pyStrip t).length :=
  processStep_inv e1 e2 relPath chunks.enum ([], [])
    (by intro d hd; simp at hd) (by intro t ht; simp at ht)

theorem process_chunks_min_content_witness :
    50 ≤ (pyStrip (List.replicate 60 'a')).length :=
  (process_chunks_min_content (V := Unit) (fun _ => some ()) (fun _ => none)
      ['f'] [List.replicate 60 'a']).2 (List.replicate 60 'a') (by decide)

/-! ### Chunk identifiers (claim C10) -/

theorem natDigits_ne_nil (n : Nat) : natDigits n ≠ [] := by
  unfold natDigits
  split <;> simp

theorem digitChar_not_special :
    ∀ m : Fin 10, Nat.digitChar m.val ≠ '.' ∧ Nat.digitChar m.val ≠ ' ' := by
  decide

theorem digitChar_inj_fin :
    ∀ a b : Fin 10, Nat.digitChar a.val = Nat.digitChar b.val → a = b := by
  decide

theorem natDigits_not_special (n : Nat) :
    ∀ c ∈ natDigits n, c ≠ '.' ∧ c ≠ ' ' := by
  induction n using Nat.strong_induction_on with
  | _ n ih =>
    intro c hc
    unfold natDigits at hc
    split at hc
    · next h =>
      rw [List.mem_singleton] at hc
      subst hc
      exact digitChar_not_special ⟨n, h⟩
    · next h =>
      rw [List.mem_append] at hc
      rcases hc with hc | hc
      · exact ih (n / 10) (Nat.div_lt_self (by omega) (by omega)) c hc
      · rw [List.mem_singleton] at hc
        subst hc
        exact digitChar_not_special ⟨n % 10, Nat.mod_lt _ (by omega)⟩

theorem natDigits_injective : ∀ m n : Nat, natDigits m = natDigits n → m = n := by
  intro m
  induction m using Nat.strong_induction_on with
  | _ m ih =>
    intro n h
    by_cases hm : m < 10 <;> by_cases hn : n < 10
    · unfold natDigits at h
      rw [dif_pos hm, dif_pos hn, List.cons.injEq] at h
      exact congrArg Fin.val (digitChar_inj_fin ⟨m, hm⟩ ⟨n, hn⟩ h.1)
    · unfold natDigits at h
      rw [dif_pos hm, dif_neg hn] at h
      have hl := congrArg List.length h
      simp only [List.length_singleton, List.length_append] at hl
      have h0 : natDigits (n / 10) = [] :=
        List.length_eq_zero.mp (by omega)
      exact absurd h0 (natDigits_ne_nil _)
    · unfold natDigits at h
      rw [dif_neg hm, dif_pos hn] at h
      have hl := congrArg List.length h
      simp only [List.length_singleton, List.length_append] at hl
      have h0 : natDigits (m / 10) = [] :=
        List.length_eq_zero.mp (by omega)
      exact absurd h0 (natDigits_ne_nil _)
    · unfold natDigits at h
      rw [dif_neg hm, dif_neg hn] at h
      have h2 := congrArg List.reverse h
      simp only [List.reverse_append, List.reverse_cons, List.reverse_nil,
        List.nil_append, List.cons_append, List.cons.injEq] at h2
      obtain ⟨hd, htl⟩ := h2
      have hmod : m % 10 = n % 10 :=
        congrArg Fin.val (digitChar_inj_fin ⟨m % 10, Nat.mod_lt _ (by omega)⟩
          ⟨n % 10, Nat.mod_lt _ (by omega)⟩ hd)
      have hdiv : m / 10 = n / 10 :=
        ih (m / 10) (Nat.div_lt_self (by omega) (by omega)) (n / 10)
          (List.reverse_injective htl)
      omega

theorem map_id_of_mem (f : Char → Char) (l : List Char) (h : ∀ c ∈ l, f c = c) :
    l.map f = l := by
  induction l with
  | nil => rfl
  | cons a l ih =>
    rw [List.map_cons, h a (List.mem_cons_self a l),
      ih fun c hc => h c (List.mem_cons_of_mem a hc)]

/-- The replacements leave the digit suffix intact: `safe_id p i` is the
cleaned path followed by `'_'` and the decimal digits of `i`. -/
theorem safe_id_eq (relPath : List Char) (i : Nat) :
    safe_id relPath i =
      ((relPath.map fun c => if c == '.' then '_' else c).map
        fun c => if c == ' ' then '_' else c) ++ '_' :: natDigits i := by
  unfold safe_id
  rw [List.map_append, List.map_append, List.map_cons, List.map_cons]
  have hdig1 : (natDigits i).map (fun c => if c == '.' then '_' else c) = natDigits i :=
    map_id_of_mem _ _ fun c hc => by
      have := (natDigits_not_special i c hc).1
      simp [this]
  have hdig2 : (natDigits i).map (fun c => if c == ' ' then '_' else c) = natDigits i :=
    map_id_of_mem _ _ fun c hc => by
      have := (natDigits_not_special i c hc).2
      simp [this]
  rw [hdig1, hdig2]
  rfl

/-- C10 counterexample: two distinct (relative path, chunk index) pairs with
the same `_id`: `"a.b"` and `"a b"` both collapse to `"a_b"`. -/
theorem safe_id_collision :
    safe_id ('a' :: '.' :: 'b' :: []) 0 = safe_id ('a' :: ' ' :: 'b' :: []) 0 ∧
      ('a' :: '.' :: 'b' :: [], (0 : Nat)) ≠ ('a' :: ' ' :: 'b' :: [], (0 : Nat)) := by
  refine ⟨?_, by decide⟩
  rw [safe_id_eq, safe_id_eq]
  rfl

/-- C10 (amended): chunk identifiers are unique per file.  For a fixed
relative file path, distinct chunk indices always yield distinct `_id`s (the
decimal digits are untouched by the replacements); across different paths the
`_id` can collide, as `safe_id_collision` shows. -/
theorem safe_id_same_path_inj (relPath : List Char) (i j : Nat) (hij : i ≠ j) :
    safe_id relPath i ≠ safe_id relPath j := by
  intro h
  rw [safe_id_eq, safe_id_eq] at h
  have h2 := List.append_cancel_left h
  rw [List.cons.injEq] at h2
  exact hij (natDigits_injective i j h2.2)

theorem safe_id_same_path_inj_witness :
    safe_id ('f' :: []) 0 ≠ safe_id ('f' :: []) 1 :=
  safe_id_same_path_inj ('f' :: []) 0 1 (by decide)

end QuranILM
